import Mathlib

/-!
Verification of the `racy` profiler core against its specification.

Shallow embedding of the Rust sources:
  * `src/common/src/lib.rs`  — the binary event-log codec
    (`serialize_events` / `deserialize_events`);
  * `src/client/src/lib.rs`  — the capture buffer (`record_event`,
    `dump_current`, `ScopedProfiler::drop`, `init_profiler`);
  * `src/racy/src/event.rs`  — the reconstruction engine
    (`EventsBuilder::convert` / `partition` / `update_depth` / `build`,
    the `PartialOrd`/`Ord` instances of `EventSpan`).

Machine integers (`u64`, `u128`, `u32`) are embedded as `Nat` with explicit
`% 2 ^ w` at the points where the Rust code truncates (casts, fixed-width
serialization); byte strings are `List Nat` with each byte `< 256`.
Fallible Rust code (`io::Result`, `try_lock`) is embedded with `Option`
or explicit success flags; a Rust `unwrap` on an error is modelled as a
distinguished "panicked" outcome.
-/

namespace Racy

/-- Embeds `common::Event` (a raw event on the wire): `id: u64`, `duration: u64`,
`timestamp: u128`, `name: String`.  The name is kept as its UTF-8 byte
sequence (`List Nat`). -/
structure Event where
  id : Nat
  duration : Nat
  timestamp : Nat
  name : List Nat
deriving DecidableEq, Repr

/-- Big-endian fixed-width byte encoding of a natural number, as produced by
Rust `to_be_bytes` (the value is implicitly reduced mod `2 ^ (8 * width)`,
which is what the `as u32` cast in `serialize_events` does to `name.len()`). -/
def toBytesBE : Nat → Nat → List Nat
  | 0, _ => []
  | w + 1, n => toBytesBE w (n / 256) ++ [n % 256]

/-- Big-endian byte decoding, as performed by Rust `from_be_bytes`. -/
def fromBytesBE (bs : List Nat) : Nat :=
  bs.foldl (fun acc b => acc * 256 + b) 0

/-- UTF-8 continuation byte (`10xxxxxx`). -/
def isCont (b : Nat) : Bool := 0x80 ≤ b && b ≤ 0xBF

/-- Validity of a byte sequence as UTF-8, as checked by Rust
`String::from_utf8` inside `deserialize_events` (shortest-form encodings
only, surrogates and code points above `U+10FFFF` rejected). -/
def validUtf8 : List Nat → Bool
  | [] => true
  | b :: rest =>
    if b ≤ 0x7F then validUtf8 rest
    else
      match rest with
      | [] => false
      | c1 :: rest1 =>
        if 0xC2 ≤ b && b ≤ 0xDF then isCont c1 && validUtf8 rest1
        else
          match rest1 with
          | [] => false
          | c2 :: rest2 =>
            if (b == 0xE0 && (0xA0 ≤ c1 && c1 ≤ 0xBF)
                || (0xE1 ≤ b && b ≤ 0xEC) && isCont c1
                || b == 0xED && (0x80 ≤ c1 && c1 ≤ 0x9F)
                || (0xEE ≤ b && b ≤ 0xEF) && isCont c1) && isCont c2 then
              validUtf8 rest2
            else
              match rest2 with
              | [] => false
              | c3 :: rest3 =>
                if (b == 0xF0 && (0x90 ≤ c1 && c1 ≤ 0xBF)
                    || (0xF1 ≤ b && b ≤ 0xF3) && isCont c1
                    || b == 0xF4 && (0x80 ≤ c1 && c1 ≤ 0x8F))
                   && isCont c2 && isCont c3 then
                  validUtf8 rest3
                else false

/-- One wire record, exactly as emitted by `serialize_events`:
`id (8B BE) ++ timestamp (16B BE) ++ duration (8B BE) ++
name_len (4B BE) ++ name`. -/
def serializeEvent (e : Event) : List Nat :=
  toBytesBE 8 e.id ++ toBytesBE 16 e.timestamp ++ toBytesBE 8 e.duration
    ++ toBytesBE 4 e.name.length ++ e.name

/-- Embeds `common::serialize_events`: concatenation of the records. -/
def serializeEvents : List Event → List Nat
  | [] => []
  | e :: rest => serializeEvent e ++ serializeEvents rest

/-- Embeds `Cursor::read_exact` into an `n`-byte buffer: succeeds iff at least `n`
bytes remain, consuming them. -/
def readN (n : Nat) (data : List Nat) : Option (List Nat × List Nat) :=
  if n ≤ data.length then some (data.take n, data.drop n) else none

/-- One iteration of the `deserialize_events` loop: read `id`, `timestamp`,
`duration`, `name_len` and the name payload in order, failing if any read
is short or the name is not valid UTF-8. -/
def parseRecord (data : List Nat) : Option (Event × List Nat) :=
  match readN 8 data with
  | none => none
  | some (idB, r1) =>
    match readN 16 r1 with
    | none => none
    | some (tsB, r2) =>
      match readN 8 r2 with
      | none => none
      | some (durB, r3) =>
        match readN 4 r3 with
        | none => none
        | some (lenB, r4) =>
          match readN (fromBytesBE lenB) r4 with
          | none => none
          | some (nameB, r5) =>
            if validUtf8 nameB then
              some ({ id := fromBytesBE idB, duration := fromBytesBE durB,
                      timestamp := fromBytesBE tsB, name := nameB }, r5)
            else none

theorem readN_some_iff {n : Nat} {d x r : List Nat} :
    readN n d = some (x, r) ↔ n ≤ d.length ∧ x = d.take n ∧ r = d.drop n := by
  unfold readN
  by_cases hle : n ≤ d.length
  · simp [hle, eq_comm]
  · simp [hle]

theorem readN_none {n : Nat} {d : List Nat} (h : d.length < n) :
    readN n d = none := by
  unfold readN
  simp [Nat.not_le.mpr h]

theorem parseRecord_rest_length {data : List Nat} {ev : Event} {rest : List Nat}
    (h : parseRecord data = some (ev, rest)) : rest.length < data.length := by
  unfold parseRecord at h
  cases h1 : readN 8 data with
  | none => rw [h1] at h; exact absurd h (by simp)
  | some p1 =>
  obtain ⟨idB, r1⟩ := p1
  rw [h1] at h; dsimp only at h
  cases h2 : readN 16 r1 with
  | none => rw [h2] at h; exact absurd h (by simp)
  | some p2 =>
  obtain ⟨tsB, r2⟩ := p2
  rw [h2] at h; dsimp only at h
  cases h3 : readN 8 r2 with
  | none => rw [h3] at h; exact absurd h (by simp)
  | some p3 =>
  obtain ⟨durB, r3⟩ := p3
  rw [h3] at h; dsimp only at h
  cases h4 : readN 4 r3 with
  | none => rw [h4] at h; exact absurd h (by simp)
  | some p4 =>
  obtain ⟨lenB, r4⟩ := p4
  rw [h4] at h; dsimp only at h
  cases h5 : readN (fromBytesBE lenB) r4 with
  | none => rw [h5] at h; exact absurd h (by simp)
  | some p5 =>
  obtain ⟨nameB, r5⟩ := p5
  rw [h5] at h; dsimp only at h
  by_cases hv : validUtf8 nameB = true
  · simp only [hv, if_true, Option.some.injEq, Prod.mk.injEq] at h
    obtain ⟨le1, -, e1⟩ := readN_some_iff.mp h1
    obtain ⟨-, -, e2⟩ := readN_some_iff.mp h2
    obtain ⟨-, -, e3⟩ := readN_some_iff.mp h3
    obtain ⟨-, -, e4⟩ := readN_some_iff.mp h4
    obtain ⟨-, -, e5⟩ := readN_some_iff.mp h5
    have hr : rest = r5 := h.2.symm
    subst hr; subst e5; subst e4; subst e3; subst e2; subst e1
    simp only [List.length_drop]
    omega
  · simp [hv] at h

/-- Embeds `common::deserialize_events`: scan records from offset 0 until the input
is exhausted; any failure fails the whole decode (`none`). -/
def deserializeEvents (data : List Nat) : Option (List Event) :=
  if h : data = [] then some []
  else
    match h2 : parseRecord data with
    | none => none
    | some (ev, rest) =>
      match deserializeEvents rest with
      | none => none
      | some evs => some (ev :: evs)
termination_by data.length
decreasing_by exact parseRecord_rest_length h2

/-- Well-formedness of an embedded raw event: the fields fit their Rust
machine-integer types and the name is (as every Rust `String` is) valid
UTF-8. -/
def WFEvent (e : Event) : Prop :=
  e.id < 2 ^ 64 ∧ e.timestamp < 2 ^ 128 ∧ e.duration < 2 ^ 64 ∧
    e.name.length < 2 ^ 32 ∧ validUtf8 e.name = true

instance (e : Event) : Decidable (WFEvent e) := by
  unfold WFEvent; infer_instance

theorem toBytesBE_length (w n : Nat) : (toBytesBE w n).length = w := by
  induction w generalizing n with
  | zero => rfl
  | succ w ih => simp [toBytesBE, ih]

theorem fromBytesBE_append_single (bs : List Nat) (b : Nat) :
    fromBytesBE (bs ++ [b]) = fromBytesBE bs * 256 + b := by
  unfold fromBytesBE
  rw [List.foldl_append]
  rfl

theorem fromBytesBE_toBytesBE {w n : Nat} (h : n < 256 ^ w) :
    fromBytesBE (toBytesBE w n) = n := by
  induction w generalizing n with
  | zero =>
    interval_cases n
    rfl
  | succ w ih =>
    have hdiv : n / 256 < 256 ^ w := by
      rw [Nat.div_lt_iff_lt_mul (by norm_num)]
      calc n < 256 ^ (w + 1) := h
        _ = 256 ^ w * 256 := by ring
    rw [toBytesBE, fromBytesBE_append_single, ih hdiv]
    omega

theorem readN_append {n : Nat} {xs : List Nat} (ys : List Nat)
    (h : xs.length = n) : readN n (xs ++ ys) = some (xs, ys) := by
  subst h
  unfold readN
  simp [List.take_left, List.drop_left]

theorem serializeEvent_length (e : Event) :
    (serializeEvent e).length = 36 + e.name.length := by
  simp [serializeEvent, toBytesBE_length]
  omega

theorem parseRecord_serializeEvent {e : Event} (hwf : WFEvent e)
    (tail : List Nat) :
    parseRecord (serializeEvent e ++ tail) = some (e, tail) := by
  obtain ⟨hid, hts, hdur, hlen, hutf⟩ := hwf
  unfold serializeEvent parseRecord
  rw [List.append_assoc, List.append_assoc, List.append_assoc, List.append_assoc]
  rw [readN_append _ (toBytesBE_length 8 e.id)]
  dsimp only
  rw [readN_append _ (toBytesBE_length 16 e.timestamp)]
  dsimp only
  rw [readN_append _ (toBytesBE_length 8 e.duration)]
  dsimp only
  rw [readN_append _ (toBytesBE_length 4 e.name.length)]
  dsimp only
  rw [fromBytesBE_toBytesBE (show e.name.length < 256 ^ 4 by norm_num at hlen ⊢; omega)]
  rw [readN_append tail rfl]
  dsimp only
  rw [hutf]
  simp only [if_true]
  rw [fromBytesBE_toBytesBE (show e.id < 256 ^ 8 by norm_num at hid ⊢; omega)]
  rw [fromBytesBE_toBytesBE (show e.timestamp < 256 ^ 16 by norm_num at hts ⊢; omega)]
  rw [fromBytesBE_toBytesBE (show e.duration < 256 ^ 8 by norm_num at hdur ⊢; omega)]

theorem serializeEvents_ne_nil {events : List Event} (h : events ≠ []) :
    serializeEvents events ≠ [] := by
  cases events with
  | nil => exact absurd rfl h
  | cons e rest =>
    have : (serializeEvent e).length = 36 + e.name.length := serializeEvent_length e
    simp only [serializeEvents, ne_eq, List.append_eq_nil]
    intro hc
    have := hc.1
    have hl : (serializeEvent e).length = 0 := by rw [this]; rfl
    omega

theorem deserializeEvents_serializeEvents {events : List Event}
    (hwf : ∀ e ∈ events, WFEvent e) :
    deserializeEvents (serializeEvents events) = some events := by
  induction events with
  | nil =>
    rw [show serializeEvents [] = [] from rfl, deserializeEvents]
    simp
  | cons e rest ih =>
    have hne : serializeEvent e ++ serializeEvents rest ≠ [] := by
      intro hc
      have h1 := congrArg List.length hc
      simp only [List.length_append, serializeEvent_length, List.length_nil] at h1
      omega
    rw [show serializeEvents (e :: rest) = serializeEvent e ++ serializeEvents rest from rfl]
    rw [deserializeEvents]
    rw [dif_neg hne]
    rw [parseRecord_serializeEvent (hwf e (by simp)) (serializeEvents rest)]
    dsimp only
    rw [ih (fun x hx => hwf x (by simp [hx]))]

theorem dropLast_append_of_ne_nil {xs ys : List Nat} (h : ys ≠ []) :
    (xs ++ ys).dropLast = xs ++ ys.dropLast := by
  rw [List.dropLast_append]
  simp [h]

/-- Truncating the serialization of a single well-formed event by one byte
makes its record unparseable. -/
theorem parseRecord_dropLast {e : Event} (hwf : WFEvent e) :
    parseRecord (serializeEvent e).dropLast = none := by
  obtain ⟨hid, hts, hdur, hlen, hutf⟩ := hwf
  cases hname : e.name with
  | nil =>
    -- the dropped byte is the last byte of the 4-byte name-length field
    have hrepr : serializeEvent e
        = (toBytesBE 8 e.id ++ (toBytesBE 16 e.timestamp ++ toBytesBE 8 e.duration))
            ++ toBytesBE 4 e.name.length := by
      unfold serializeEvent
      rw [hname]
      simp [List.append_assoc]
    rw [hrepr, dropLast_append_of_ne_nil (by rw [hname]; decide)]
    unfold parseRecord
    rw [List.append_assoc, List.append_assoc]
    rw [readN_append _ (toBytesBE_length 8 e.id)]
    dsimp only
    rw [readN_append _ (toBytesBE_length 16 e.timestamp)]
    dsimp only
    rw [readN_append _ (toBytesBE_length 8 e.duration)]
    dsimp only
    rw [readN_none (by rw [List.length_dropLast, toBytesBE_length]; omega)]
  | cons b bs =>
    -- the dropped byte is the last byte of the name payload
    have hnn : e.name ≠ [] := by rw [hname]; simp
    have hrepr : serializeEvent e
        = (toBytesBE 8 e.id ++ (toBytesBE 16 e.timestamp ++ (toBytesBE 8 e.duration
            ++ toBytesBE 4 e.name.length))) ++ e.name := by
      unfold serializeEvent
      simp [List.append_assoc]
    rw [hrepr, dropLast_append_of_ne_nil hnn]
    unfold parseRecord
    rw [List.append_assoc, List.append_assoc, List.append_assoc]
    rw [readN_append _ (toBytesBE_length 8 e.id)]
    dsimp only
    rw [readN_append _ (toBytesBE_length 16 e.timestamp)]
    dsimp only
    rw [readN_append _ (toBytesBE_length 8 e.duration)]
    dsimp only
    rw [readN_append _ (toBytesBE_length 4 e.name.length)]
    dsimp only
    rw [fromBytesBE_toBytesBE (show e.name.length < 256 ^ 4 by norm_num at hlen ⊢; omega)]
    rw [readN_none (by rw [List.length_dropLast]; rw [hname]; simp)]

/-- Removing the final byte of a non-empty well-formed serialization makes
the whole decode fail. -/
theorem deserializeEvents_dropLast {events : List Event} (hne : events ≠ [])
    (hwf : ∀ e ∈ events, WFEvent e) :
    deserializeEvents (serializeEvents events).dropLast = none := by
  induction events with
  | nil => exact absurd rfl hne
  | cons e rest ih =>
    by_cases hr : rest = []
    · subst hr
      rw [show serializeEvents [e] = serializeEvent e ++ [] from rfl, List.append_nil]
      have hne1 : (serializeEvent e).dropLast ≠ [] := by
        intro hc
        have h1 := congrArg List.length hc
        rw [List.length_dropLast, serializeEvent_length] at h1
        simp only [List.length_nil] at h1
        omega
      rw [deserializeEvents, dif_neg hne1]
      rw [parseRecord_dropLast (hwf e (by simp))]
    · rw [show serializeEvents (e :: rest) = serializeEvent e ++ serializeEvents rest from rfl]
      rw [dropLast_append_of_ne_nil (serializeEvents_ne_nil hr)]
      have hne2 : serializeEvent e ++ (serializeEvents rest).dropLast ≠ [] := by
        intro hc
        have h1 := congrArg List.length hc
        simp only [List.length_append, serializeEvent_length, List.length_nil] at h1
        omega
      rw [deserializeEvents, dif_neg hne2]
      rw [parseRecord_serializeEvent (hwf e (by simp)) ((serializeEvents rest).dropLast)]
      dsimp only
      rw [ih hr (fun x hx => hwf x (by simp [hx]))]

/-! ## Capture buffer (`src/client/src/lib.rs`)

The per-thread buffer is a `Mutex<Vec<Event>>`; `record_event` acquires it
with `try_lock`.  We embed the state visible to one thread: its buffer, a
flag saying whether the buffer guard can be acquired right now (`try_lock`
succeeds), and the shared sink.  File I/O outcomes are embedded as flags on
the sink (`openOk`, `writeOk`, `flushOk`); the sink records the bytes
appended by successful writes. -/

/-- The constant `SPILL_CONSTANT` from `src/client/src/lib.rs`. -/
def SPILL_CONSTANT : Nat := 100

/-- The shared sink (`default_save_file()`), with the outcome of each I/O
primitive made explicit. -/
structure Sink where
  openOk : Bool
  writeOk : Bool
  flushOk : Bool
  data : List Nat
deriving DecidableEq, Repr

/-- The capture state visible to one instrumented thread. -/
structure CaptureState where
  lockAvailable : Bool
  buffer : List Event
  sink : Sink
deriving DecidableEq, Repr

/-- Embeds `client::dump_current`: open the sink, serialize the buffer, write and
flush, and only then clear the buffer.  Each `?` returns early, so on any
failure the function returns the error with the buffer (and, before the
write, the sink) untouched.  Result: `(ok, sink, buffer)`. -/
def dumpCurrent (sink : Sink) (events : List Event) :
    Bool × Sink × List Event :=
  if sink.openOk = false then (false, sink, events)
  else if sink.writeOk = false then (false, sink, events)
  else if sink.flushOk = false then
    (false, { sink with data := sink.data ++ serializeEvents events }, events)
  else
    (true, { sink with data := sink.data ++ serializeEvents events }, [])

/-- Embeds `client::record_event`: `try_lock` the thread's buffer (an immediate
error if unavailable — the `false` outcome), push the event, and spill via
`dump_current` when the buffer length exceeds `SPILL_CONSTANT`.  Errors from
the spill propagate (`?`). -/
def recordEvent (st : CaptureState) (ev : Event) : Bool × CaptureState :=
  if st.lockAvailable = false then (false, st)
  else
    let buf := st.buffer ++ [ev]
    if SPILL_CONSTANT < buf.length then
      let r := dumpCurrent st.sink buf
      (r.1, { st with sink := r.2.1, buffer := r.2.2 })
    else
      (true, { st with buffer := buf })

/-- Outcome of `ScopedProfiler::drop` for the instrumented thread. -/
inductive DropOutcome where
  | normal
  | panicked
deriving DecidableEq, Repr

/-- Embeds `ScopedProfiler::drop`: build the event and call
`record_event(event).unwrap()` — an `Err` from `record_event` becomes a
panic on the instrumented thread. -/
def scopedDrop (st : CaptureState) (ev : Event) : DropOutcome × CaptureState :=
  let r := recordEvent st ev
  (if r.1 then DropOutcome.normal else DropOutcome.panicked, r.2)

/-- Process-wide state relevant to `init_profiler`: the
`ATEXIT_REGISTERED` atomic flag, plus counters for the observable effects
(sink truncations, `atexit` flush registrations). -/
structure InitState where
  atexitRegistered : Bool
  truncations : Nat
  registrations : Nat
deriving DecidableEq, Repr

/-- Embeds `client::init_profiler`: `swap(true)` on the atomic flag; only when the
old value was `false` does it truncate the sink and register the
process-exit flush. -/
def initProfiler (s : InitState) : InitState :=
  let old := s.atexitRegistered
  let s1 : InitState := { s with atexitRegistered := true }
  if old = false then
    { s1 with truncations := s1.truncations + 1,
              registrations := s1.registrations + 1 }
  else s1

/-- Iterates `init_profiler` a number `n` of times. -/
def initCalls : Nat → InitState → InitState
  | 0, s => s
  | n + 1, s => initCalls n (initProfiler s)

/-- The process state before any initialization. -/
def initState0 : InitState :=
  { atexitRegistered := false, truncations := 0, registrations := 0 }

/-! ## Reconstruction engine (`src/racy/src/event.rs`) -/

/-- Embeds `EventSpan`: a normalized span; `timestamp` is relative (u64), `depth`
is computed by `update_depth`. -/
structure EventSpan where
  id : Nat
  duration : Nat
  timestamp : Nat
  depth : Nat
  name : List Nat
deriving DecidableEq, Repr

/-- Byte-lexicographic comparison, the order Rust `String`/`str` use
(`partial_cmp` on strings compares the UTF-8 bytes lexicographically). -/
def lexCmpBytes : List Nat → List Nat → Ordering
  | [], [] => Ordering.eq
  | [], _ :: _ => Ordering.lt
  | _ :: _, [] => Ordering.gt
  | x :: xs, y :: ys =>
    match compare x y with
    | Ordering.eq => lexCmpBytes xs ys
    | o => o

/-- Rust `u64::partial_cmp`/`u128::partial_cmp`: always `Some` of the total
comparison. -/
def natPartialCmp (a b : Nat) : Option Ordering := some (compare a b)

/-- Rust `String::partial_cmp`: always `Some` of the lexicographic
comparison. -/
def bytesPartialCmp (a b : List Nat) : Option Ordering :=
  some (lexCmpBytes a b)

/-- Embeds `impl PartialOrd for EventSpan` from `src/racy/src/event.rs`: compare
`timestamp`, then `duration` with the result reversed, then `id`, then
`depth`, then `name`; every non-`Equal` (or `None`) intermediate result
returns early. -/
def partialCmpSpan (a b : EventSpan) : Option Ordering :=
  match natPartialCmp a.timestamp b.timestamp with
  | some Ordering.eq =>
    match natPartialCmp a.duration b.duration with
    | some Ordering.eq =>
      match natPartialCmp a.id b.id with
      | some Ordering.eq =>
        match natPartialCmp a.depth b.depth with
        | some Ordering.eq => bytesPartialCmp a.name b.name
        | ord => ord
      | ord => ord
    | ord => Option.map Ordering.swap ord
  | ord => ord

/-- Embeds `impl Ord for EventSpan`: `self.partial_cmp(other).unwrap()`.  The
unwrap is modelled with a default that `partialCmpSpan_isSome` proves is
never used. -/
def cmpSpan (a b : EventSpan) : Ordering :=
  (partialCmpSpan a b).getD Ordering.eq

/-- The comparator the specification prescribes, written as the lexicographic
chain of its five keys: ascending relative start, descending duration,
ascending id, ascending depth, lexicographic name. -/
def specCmpSpan (a b : EventSpan) : Ordering :=
  (compare a.timestamp b.timestamp).then
    ((compare a.duration b.duration).swap.then
      ((compare a.id b.id).then
        ((compare a.depth b.depth).then (lexCmpBytes a.name b.name))))

/-- The "less or equal" relation induced by `cmpSpan`; `Vec::sort` (a stable
sort by `Ord::cmp`) sorts into an order where consecutive elements satisfy
it. -/
def spanLE (a b : EventSpan) : Prop := cmpSpan a b ≠ Ordering.gt

instance : DecidableRel spanLE := by
  unfold spanLE; infer_instance

/-- The pop loop of `update_depth`: `while stack.last() <= span.timestamp
{ stack.pop() }`.  The stack is embedded head-as-top (the head of the list
is the top of the Rust `Vec`). -/
def popLE (ts : Nat) : List Nat → List Nat
  | [] => []
  | e :: rest => if e ≤ ts then popLE ts rest else e :: rest

/-- The sweep of `update_depth` after sorting: pop closed spans, set the
depth to the stack size, push the span's own end offset. -/
def sweep : List EventSpan → List Nat → List EventSpan
  | [], _ => []
  | s :: rest, stack =>
    let stack1 := popLE s.timestamp stack
    { s with depth := stack1.length } ::
      sweep rest ((s.timestamp + s.duration) :: stack1)

/-- Embeds `EventsBuilder::update_depth`: `spans.sort()` followed by the stack
sweep.  Rust's stable sort is embedded as insertion sort; since `spanLE`
is total and transitive (`cmpSpan_total_order`), every stable sort produces
this list. -/
def updateDepth (spans : List EventSpan) : List EventSpan :=
  sweep (List.insertionSort spanLE spans) []

/-- Embeds `EventsBuilder::convert`: subtract the minimum timestamp and cast the
offset `as u64` (truncating); `depth` starts at 0. -/
def convert (rawEvents : List Event) (minTimestamp : Nat) : List EventSpan :=
  rawEvents.map (fun e =>
    { id := e.id, duration := e.duration,
      timestamp := (e.timestamp - minTimestamp) % 2 ^ 64,
      depth := 0, name := e.name })

/-- Embeds `EventsBuilder::partition`, with the `HashMap<u64, Thread>` embedded as
an association list in first-insertion key order (the `HashMap` iteration
order is unspecified; each thread is processed independently, so no claim
depends on it). -/
def addToThread (acc : List (Nat × List EventSpan)) (span : EventSpan) :
    List (Nat × List EventSpan) :=
  match acc with
  | [] => [(span.id, [span])]
  | (id, spans) :: rest =>
    if id = span.id then (id, spans ++ [span]) :: rest
    else (id, spans) :: addToThread rest span

def partition (events : List EventSpan) : List (Nat × List EventSpan) :=
  events.foldl addToThread []

/-- Embeds `Events` (the EventLog): global start time, total duration, and the
per-thread spans. -/
structure Events where
  start_time : Nat
  total_duration : Nat
  threads : List (Nat × List EventSpan)
deriving DecidableEq, Repr

/-- Embeds `EventsBuilder::build`.  The two `.unwrap()` calls on `min()`/`max()`
panic on an empty input; a panic is embedded as `none`. -/
def build (events : List Event) : Option Events :=
  match (events.map (fun e => e.timestamp)).min? with
  | none => none
  | some minTimestamp =>
    let spans := convert events minTimestamp
    match (spans.map (fun s => s.timestamp + s.duration)).max? with
    | none => none
    | some totalDuration =>
      some { start_time := minTimestamp,
             total_duration := totalDuration,
             threads := (partition spans).map (fun p => (p.1, updateDepth p.2)) }

/-! ## Interval nesting predicates (for the depth-correctness claim) -/

/-- The end offset of a span's interval. -/
def spanEnd (s : EventSpan) : Nat := s.timestamp + s.duration

/-- Two spans cover the same interval. -/
def sameInterval (a b : EventSpan) : Prop :=
  a.timestamp = b.timestamp ∧ a.duration = b.duration

/-- Span `a` properly contains `b`: `b`'s interval lies inside `a`'s and the two
intervals differ. -/
def properlyContains (a b : EventSpan) : Prop :=
  a.timestamp ≤ b.timestamp ∧ spanEnd b ≤ spanEnd a ∧
    (a.timestamp < b.timestamp ∨ spanEnd b < spanEnd a)

/-- Disjoint (non-overlapping) intervals. -/
def disjointSpans (a b : EventSpan) : Prop :=
  spanEnd a ≤ b.timestamp ∨ spanEnd b ≤ a.timestamp

/-- The nesting relation well-nested inputs satisfy pairwise: disjoint, or
one properly inside the other. -/
def nestRel (a b : EventSpan) : Prop :=
  disjointSpans a b ∨ properlyContains a b ∨ properlyContains b a

/-- Well-nested input: positive durations, and every two spans either
disjoint or properly nested (in particular, never two spans over the same
interval and never partially overlapping "crossing" spans). -/
def WellNested (l : List EventSpan) : Prop :=
  (∀ s ∈ l, 0 < s.duration) ∧ l.Pairwise nestRel

instance (a b : EventSpan) : Decidable (sameInterval a b) := by
  unfold sameInterval; infer_instance

instance (a b : EventSpan) : Decidable (properlyContains a b) := by
  unfold properlyContains spanEnd; infer_instance

instance (a b : EventSpan) : Decidable (disjointSpans a b) := by
  unfold disjointSpans spanEnd; infer_instance

instance (a b : EventSpan) : Decidable (nestRel a b) := by
  unfold nestRel; infer_instance

instance (l : List EventSpan) : Decidable (WellNested l) := by
  unfold WellNested; infer_instance

/-! ## Comparator lemmas -/

theorem natCompare_swap (a b : Nat) : compare b a = (compare a b).swap := by
  rcases Nat.lt_trichotomy a b with h | h | h
  · rw [Nat.compare_eq_lt.mpr h, Nat.compare_eq_gt.mpr h]; rfl
  · subst h; rw [Nat.compare_eq_eq.mpr rfl]; rfl
  · rw [Nat.compare_eq_gt.mpr h, Nat.compare_eq_lt.mpr h]; rfl

theorem swap_eq_lt {o : Ordering} : o.swap = Ordering.lt ↔ o = Ordering.gt := by
  cases o <;> decide

theorem swap_eq_gt {o : Ordering} : o.swap = Ordering.gt ↔ o = Ordering.lt := by
  cases o <;> decide

theorem swap_eq_eq {o : Ordering} : o.swap = Ordering.eq ↔ o = Ordering.eq := by
  cases o <;> decide

theorem lexCmpBytes_eq_iff (xs ys : List Nat) :
    lexCmpBytes xs ys = Ordering.eq ↔ xs = ys := by
  induction xs generalizing ys with
  | nil => cases ys <;> simp [lexCmpBytes]
  | cons x xs ih =>
    cases ys with
    | nil => simp [lexCmpBytes]
    | cons y ys =>
      simp only [lexCmpBytes]
      cases h : compare x y with
      | eq =>
        have hxy : x = y := Nat.compare_eq_eq.mp h
        simp [hxy, ih]
      | lt =>
        have hlt := Nat.compare_eq_lt.mp h
        dsimp only
        constructor
        · intro hc; exact absurd hc (by decide)
        · intro hc; injection hc with h1 _; omega
      | gt =>
        have hgt := Nat.compare_eq_gt.mp h
        dsimp only
        constructor
        · intro hc; exact absurd hc (by decide)
        · intro hc; injection hc with h1 _; omega

theorem lexCmpBytes_swap (xs ys : List Nat) :
    lexCmpBytes ys xs = (lexCmpBytes xs ys).swap := by
  induction xs generalizing ys with
  | nil => cases ys <;> rfl
  | cons x xs ih =>
    cases ys with
    | nil => rfl
    | cons y ys =>
      simp only [lexCmpBytes]
      rw [natCompare_swap x y]
      cases compare x y with
      | lt => rfl
      | gt => rfl
      | eq => exact ih ys

theorem lexCmpBytes_lt_trans {a b c : List Nat}
    (h1 : lexCmpBytes a b = Ordering.lt) (h2 : lexCmpBytes b c = Ordering.lt) :
    lexCmpBytes a c = Ordering.lt := by
  induction a generalizing b c with
  | nil =>
    cases c with
    | nil =>
      cases b with
      | nil => exact absurd h1 (by decide)
      | cons y ys => exact absurd h2 (by simp [lexCmpBytes])
    | cons z zs => simp [lexCmpBytes]
  | cons x xs ih =>
    cases b with
    | nil => exact absurd h1 (by simp [lexCmpBytes])
    | cons y ys =>
      cases c with
      | nil => exact absurd h2 (by simp [lexCmpBytes])
      | cons z zs =>
        simp only [lexCmpBytes] at h1 h2 ⊢
        cases hxy : compare x y with
        | gt => rw [hxy] at h1; dsimp only at h1; exact absurd h1 (by decide)
        | lt =>
          have hx := Nat.compare_eq_lt.mp hxy
          cases hyz : compare y z with
          | gt => rw [hyz] at h2; dsimp only at h2; exact absurd h2 (by decide)
          | lt =>
            have hy := Nat.compare_eq_lt.mp hyz
            rw [Nat.compare_eq_lt.mpr (by omega)]
          | eq =>
            have hy := Nat.compare_eq_eq.mp hyz
            rw [Nat.compare_eq_lt.mpr (by omega)]
        | eq =>
          have hx := Nat.compare_eq_eq.mp hxy
          rw [hxy] at h1
          dsimp only at h1
          cases hyz : compare y z with
          | gt => rw [hyz] at h2; dsimp only at h2; exact absurd h2 (by decide)
          | lt =>
            have hy := Nat.compare_eq_lt.mp hyz
            rw [Nat.compare_eq_lt.mpr (by omega)]
          | eq =>
            have hy := Nat.compare_eq_eq.mp hyz
            rw [hyz] at h2
            dsimp only at h2
            rw [Nat.compare_eq_eq.mpr (by omega)]
            dsimp only
            exact ih h1 h2

/-- The source `partial_cmp` never returns `None`, and equals the
spec-prescribed lexicographic chain. -/
theorem partialCmpSpan_eq_spec (a b : EventSpan) :
    partialCmpSpan a b = some (specCmpSpan a b) := by
  unfold partialCmpSpan specCmpSpan natPartialCmp bytesPartialCmp
  cases compare a.timestamp b.timestamp with
  | lt => rfl
  | gt => rfl
  | eq =>
    cases compare a.duration b.duration with
    | lt => rfl
    | gt => rfl
    | eq =>
      cases compare a.id b.id with
      | lt => rfl
      | gt => rfl
      | eq =>
        cases compare a.depth b.depth with
        | lt => rfl
        | gt => rfl
        | eq => rfl

theorem cmpSpan_eq_spec (a b : EventSpan) : cmpSpan a b = specCmpSpan a b := by
  rw [cmpSpan, partialCmpSpan_eq_spec]; rfl

theorem specCmpSpan_swap (a b : EventSpan) :
    specCmpSpan b a = (specCmpSpan a b).swap := by
  unfold specCmpSpan
  rw [Ordering.swap_then, Ordering.swap_then, Ordering.swap_then,
    Ordering.swap_then]
  rw [natCompare_swap a.timestamp b.timestamp,
    natCompare_swap a.duration b.duration, natCompare_swap a.id b.id,
    natCompare_swap a.depth b.depth, lexCmpBytes_swap a.name b.name,
    Ordering.swap_swap]

theorem specCmpSpan_eq_iff (a b : EventSpan) :
    specCmpSpan a b = Ordering.eq ↔ a = b := by
  unfold specCmpSpan
  rw [Ordering.then_eq_eq, Ordering.then_eq_eq, Ordering.then_eq_eq,
    Ordering.then_eq_eq]
  rw [swap_eq_eq, Nat.compare_eq_eq, Nat.compare_eq_eq, Nat.compare_eq_eq,
    Nat.compare_eq_eq, lexCmpBytes_eq_iff]
  cases a; cases b
  simp only [EventSpan.mk.injEq]
  tauto

theorem specCmpSpan_lt_iff (a b : EventSpan) :
    specCmpSpan a b = Ordering.lt ↔
      a.timestamp < b.timestamp ∨ (a.timestamp = b.timestamp ∧
        (b.duration < a.duration ∨ (a.duration = b.duration ∧
          (a.id < b.id ∨ (a.id = b.id ∧
            (a.depth < b.depth ∨ (a.depth = b.depth ∧
              lexCmpBytes a.name b.name = Ordering.lt))))))) := by
  unfold specCmpSpan
  rw [Ordering.then_eq_lt, Ordering.then_eq_lt, Ordering.then_eq_lt,
    Ordering.then_eq_lt]
  rw [swap_eq_lt, swap_eq_eq, Nat.compare_eq_lt, Nat.compare_eq_eq,
    Nat.compare_eq_gt, Nat.compare_eq_eq, Nat.compare_eq_lt,
    Nat.compare_eq_eq, Nat.compare_eq_lt, Nat.compare_eq_eq]

theorem specCmpSpan_lt_trans {a b c : EventSpan}
    (h1 : specCmpSpan a b = Ordering.lt) (h2 : specCmpSpan b c = Ordering.lt) :
    specCmpSpan a c = Ordering.lt := by
  rw [specCmpSpan_lt_iff] at h1 h2 ⊢
  rcases h1 with h1 | ⟨e1, h1⟩
  · rcases h2 with h2 | ⟨e2, h2⟩
    · left; omega
    · left; omega
  · rcases h2 with h2 | ⟨e2, h2⟩
    · left; omega
    · right
      refine ⟨by omega, ?_⟩
      rcases h1 with h1 | ⟨f1, h1⟩
      · rcases h2 with h2 | ⟨f2, h2⟩
        · left; omega
        · left; omega
      · rcases h2 with h2 | ⟨f2, h2⟩
        · left; omega
        · right
          refine ⟨by omega, ?_⟩
          rcases h1 with h1 | ⟨g1, h1⟩
          · rcases h2 with h2 | ⟨g2, h2⟩
            · left; omega
            · left; omega
          · rcases h2 with h2 | ⟨g2, h2⟩
            · left; omega
            · right
              refine ⟨by omega, ?_⟩
              rcases h1 with h1 | ⟨k1, h1⟩
              · rcases h2 with h2 | ⟨k2, h2⟩
                · left; omega
                · left; omega
              · rcases h2 with h2 | ⟨k2, h2⟩
                · left; omega
                · right
                  exact ⟨by omega, lexCmpBytes_lt_trans h1 h2⟩

theorem spanLE_total (a b : EventSpan) : spanLE a b ∨ spanLE b a := by
  unfold spanLE
  rw [cmpSpan_eq_spec, cmpSpan_eq_spec, specCmpSpan_swap a b]
  cases specCmpSpan a b <;> simp [Ordering.swap]

theorem spanLE_trans {a b c : EventSpan} (h1 : spanLE a b) (h2 : spanLE b c) :
    spanLE a c := by
  unfold spanLE at h1 h2 ⊢
  rw [cmpSpan_eq_spec] at h1 h2 ⊢
  cases hab : specCmpSpan a b with
  | gt => exact absurd hab h1
  | eq =>
    have : a = b := (specCmpSpan_eq_iff a b).mp hab
    subst this; exact h2
  | lt =>
    cases hbc : specCmpSpan b c with
    | gt => exact absurd hbc h2
    | eq =>
      have : b = c := (specCmpSpan_eq_iff b c).mp hbc
      subst this; rw [hab]; decide
    | lt => rw [specCmpSpan_lt_trans hab hbc]; decide

instance : IsTotal EventSpan spanLE := ⟨spanLE_total⟩

instance : IsTrans EventSpan spanLE := ⟨fun _ _ _ => spanLE_trans⟩

/-- What sortedness gives between two spans `a` before `b`: earlier start,
or same start and at least as long. -/
theorem spanLE_dest {a b : EventSpan} (h : spanLE a b) :
    a.timestamp < b.timestamp ∨
      (a.timestamp = b.timestamp ∧ b.duration ≤ a.duration) := by
  unfold spanLE at h
  rw [cmpSpan_eq_spec] at h
  cases hab : specCmpSpan a b with
  | gt => exact absurd hab h
  | eq =>
    have : a = b := (specCmpSpan_eq_iff a b).mp hab
    subst this; right; exact ⟨rfl, le_refl _⟩
  | lt =>
    rw [specCmpSpan_lt_iff] at hab
    rcases hab with h1 | ⟨e1, h1⟩
    · left; exact h1
    · right
      refine ⟨e1, ?_⟩
      rcases h1 with h1 | ⟨f1, h1⟩
      · omega
      · omega

/-! ## Nesting helper lemmas -/

theorem nestRel_symm {a b : EventSpan} (h : nestRel a b) : nestRel b a := by
  unfold nestRel disjointSpans at h ⊢
  tauto

theorem sameInterval_refl (a : EventSpan) : sameInterval a a := ⟨rfl, rfl⟩

theorem sameInterval_symm {a b : EventSpan} (h : sameInterval a b) :
    sameInterval b a := ⟨h.1.symm, h.2.symm⟩

theorem sameInterval_trans {a b c : EventSpan} (h1 : sameInterval a b)
    (h2 : sameInterval b c) : sameInterval a c :=
  ⟨h1.1.trans h2.1, h1.2.trans h2.2⟩

theorem properlyContains_trans {a b c : EventSpan} (h1 : properlyContains a b)
    (h2 : properlyContains b c) : properlyContains a c := by
  unfold properlyContains spanEnd at *
  omega

theorem properlyContains_irrefl (a : EventSpan) : ¬ properlyContains a a := by
  unfold properlyContains spanEnd
  omega

theorem properlyContains_congr_left {a b c : EventSpan} (h : sameInterval a b) :
    properlyContains a c ↔ properlyContains b c := by
  unfold sameInterval at h
  unfold properlyContains spanEnd
  omega

theorem nestRel_not_sameInterval {a b : EventSpan} (h : nestRel a b)
    (hda : 0 < a.duration) (hdb : 0 < b.duration) : ¬ sameInterval a b := by
  unfold nestRel disjointSpans properlyContains sameInterval spanEnd at *
  rcases h with h | h | h <;> omega

/-- No span sorted at or after `s` properly contains `s`. -/
theorem not_properlyContains_of_spanLE {s t : EventSpan} (h : spanLE s t) :
    ¬ properlyContains t s := by
  have hd := spanLE_dest h
  unfold properlyContains spanEnd
  rcases hd with hd | ⟨hd1, hd2⟩ <;> omega

/-- For a span `t` sorted before `s` on a well-nested input, `t` is still
open at `s`'s start exactly when `t` properly contains `s`. -/
theorem open_iff_properlyContains {t s : EventSpan} (hts : spanLE t s)
    (hnest : nestRel t s) (hdt : 0 < t.duration) (hds : 0 < s.duration) :
    s.timestamp < spanEnd t ↔ properlyContains t s := by
  have hd := spanLE_dest hts
  unfold nestRel disjointSpans at hnest
  unfold properlyContains spanEnd at *
  rcases hnest with h | h | h <;> rcases hd with hd | ⟨hd1, hd2⟩ <;> omega

/-! ## Stack sweep lemmas -/

theorem popLE_eq_filter {ts : Nat} {stack : List Nat}
    (h : stack.Pairwise (· ≤ ·)) :
    popLE ts stack = stack.filter (fun e => decide (ts < e)) := by
  induction stack with
  | nil => rfl
  | cons e rest ih =>
    obtain ⟨he, hrest⟩ := List.pairwise_cons.mp h
    by_cases hle : e ≤ ts
    · have h1 : popLE ts (e :: rest) = popLE ts rest := by simp [popLE, hle]
      have h2 : decide (ts < e) = false := by simp; omega
      rw [h1, ih hrest, List.filter_cons, h2]
      simp
    · rw [show popLE ts (e :: rest) = e :: rest by simp [popLE, hle]]
      rw [List.filter_cons_of_pos (by simp; omega)]
      rw [List.filter_eq_self.mpr]
      intro x hx
      have := he x hx
      simp
      omega

theorem countP_or_disjoint {α : Type} {p q : α → Bool} (l : List α)
    (hdisj : ∀ x ∈ l, ¬(p x = true ∧ q x = true)) :
    l.countP (fun x => p x || q x) = l.countP p + l.countP q := by
  induction l with
  | nil => rfl
  | cons x rest ih =>
    rw [List.countP_cons, List.countP_cons, List.countP_cons,
      ih (fun y hy => hdisj y (by simp [hy]))]
    have hx := hdisj x (by simp)
    cases hp : p x <;> cases hq : q x <;> simp_all <;> omega

theorem countP_sameInterval_one {l : List EventSpan} {a0 a : EventSpan}
    (hmem : a0 ∈ l) (h0 : sameInterval a0 a)
    (hpw : l.Pairwise (fun x y => ¬ sameInterval x y)) :
    l.countP (fun c => decide (sameInterval c a)) = 1 := by
  induction l with
  | nil => cases hmem
  | cons h t ih =>
    rw [List.countP_cons]
    obtain ⟨hh, ht⟩ := List.pairwise_cons.mp hpw
    by_cases hsi : sameInterval h a
    · have hz : t.countP (fun c => decide (sameInterval c a)) = 0 := by
        rw [List.countP_eq_zero]
        intro x hx
        simp only [decide_eq_true_eq]
        intro hxa
        exact hh x hx (sameInterval_trans hsi (sameInterval_symm hxa))
      simp [hz, hsi]
    · rcases List.mem_cons.mp hmem with rfl | hm
      · exact absurd h0 hsi
      · simp [hsi, ih hm ht]

/-- The central sweep invariant: processing the sorted suffix `rest` with a
stack of the end offsets of the still-open spans of the processed prefix
`done` assigns every span the number of spans that properly contain it. -/
theorem sweep_eq (rest : List EventSpan) :
    ∀ (done : List EventSpan) (stack : List Nat) (lb : Nat),
    (∀ s ∈ done ++ rest, 0 < s.duration) →
    (done ++ rest).Pairwise nestRel →
    (done ++ rest).Pairwise spanLE →
    stack.Pairwise (· ≤ ·) →
    (∀ e ∈ stack, ∃ t ∈ done, spanEnd t = e) →
    (∀ c, lb ≤ c → stack.countP (fun e => decide (c < e))
        = done.countP (fun t => decide (c < spanEnd t))) →
    (∀ s ∈ rest, lb ≤ s.timestamp) →
    sweep rest stack = rest.map (fun s =>
      { s with depth :=
          (done ++ rest).countP (fun c => decide (properlyContains c s)) }) := by
  induction rest with
  | nil => intro done stack lb _ _ _ _ _ _ _; rfl
  | cons s rest ih =>
    intro done stack lb hdur hnest hsort hstS hstM hstC hlb
    have hlbs : lb ≤ s.timestamp := hlb s (by simp)
    -- facts about spans before / after s in the sorted order
    have hsort3 := List.pairwise_append.mp hsort
    have hnest3 := List.pairwise_append.mp hnest
    have hdone_le : ∀ t ∈ done, spanLE t s :=
      fun t ht => hsort3.2.2 t ht s (by simp)
    have hdone_nest : ∀ t ∈ done, nestRel t s :=
      fun t ht => hnest3.2.2 t ht s (by simp)
    have hrest_le : ∀ u ∈ rest, spanLE s u :=
      fun u hu => (List.pairwise_cons.mp hsort3.2.1).1 u hu
    have hdur_s : 0 < s.duration := hdur s (by simp)
    -- the popped stack
    have hstack1 : popLE s.timestamp stack
        = stack.filter (fun e => decide (s.timestamp < e)) :=
      popLE_eq_filter hstS
    -- the key pointwise characterization on the prefix
    have hkey : ∀ t ∈ done,
        (s.timestamp < spanEnd t ↔ properlyContains t s) := fun t ht =>
      open_iff_properlyContains (hdone_le t ht) (hdone_nest t ht)
        (hdur t (by simp [ht])) hdur_s
    -- depth of s = number of proper enclosers in the whole list
    have hdepth : (popLE s.timestamp stack).length
        = (done ++ s :: rest).countP (fun c => decide (properlyContains c s)) := by
      rw [hstack1, ← List.countP_eq_length_filter, hstC s.timestamp hlbs]
      rw [List.countP_append]
      have hzero : (s :: rest).countP
          (fun c => decide (properlyContains c s)) = 0 := by
        rw [List.countP_eq_zero]
        intro c hc
        simp only [decide_eq_true_eq]
        rcases List.mem_cons.mp hc with rfl | hcr
        · exact properlyContains_irrefl c
        · exact not_properlyContains_of_spanLE (hrest_le c hcr)
      rw [hzero, Nat.add_zero]
      exact List.countP_congr fun t ht => by
        simp only [decide_eq_true_eq]
        exact hkey t ht
    -- invariants for the recursive call
    have hreshape : (done ++ [s]) ++ rest = done ++ s :: rest := by
      rw [List.append_assoc, List.singleton_append]
    have hrec := ih (done ++ [s])
      (spanEnd s :: stack.filter (fun e => decide (s.timestamp < e)))
      s.timestamp
      (by rw [hreshape]; exact hdur)
      (by rw [hreshape]; exact hnest)
      (by rw [hreshape]; exact hsort)
      (by
        rw [List.pairwise_cons]
        constructor
        · intro e hef
          obtain ⟨hes, hlt⟩ := List.mem_filter.mp hef
          obtain ⟨t, ht, rfl⟩ := hstM e hes
          simp only [decide_eq_true_eq] at hlt
          have hpc : properlyContains t s := (hkey t ht).mp hlt
          unfold properlyContains at hpc
          exact hpc.2.1
        · exact List.Pairwise.sublist (List.filter_sublist stack) hstS)
      (by
        intro e hee
        rcases List.mem_cons.mp hee with rfl | hef
        · exact ⟨s, by simp, rfl⟩
        · obtain ⟨t, ht, rfl⟩ := hstM e (List.mem_of_mem_filter hef)
          exact ⟨t, by simp [ht], rfl⟩)
      (by
        intro c hc
        rw [List.countP_cons, List.countP_append]
        have habs : (stack.filter (fun e => decide (s.timestamp < e))).countP
            (fun e => decide (c < e)) = stack.countP (fun e => decide (c < e)) := by
          rw [List.countP_filter]
          exact List.countP_congr fun e he => by
            simp only [Bool.and_eq_true, decide_eq_true_eq]
            omega
        rw [habs, hstC c (le_trans hlbs hc)]
        have hone : List.countP (fun t => decide (c < spanEnd t)) [s]
            = if decide (c < spanEnd s) = true then 1 else 0 := by
          simp [List.countP_cons]
        rw [hone])
      (by
        intro u hu
        rcases spanLE_dest (hrest_le u hu) with h | ⟨h, -⟩
        · omega
        · omega)
    -- assemble
    show ({ s with depth := (popLE s.timestamp stack).length } ::
        sweep rest ((s.timestamp + s.duration) :: popLE s.timestamp stack))
      = _
    rw [List.map_cons]
    rw [hstack1]
    rw [show (s.timestamp + s.duration) = spanEnd s from rfl]
    rw [hrec, hreshape]
    rw [← hstack1, hdepth]

/-- On a well-nested input, `update_depth` assigns every span a depth equal
to the number of input spans properly containing it. -/
theorem updateDepth_eq_map {spans : List EventSpan} (hwf : WellNested spans) :
    updateDepth spans = (List.insertionSort spanLE spans).map
      (fun s => { s with
        depth := spans.countP (fun c => decide (properlyContains c s)) }) := by
  obtain ⟨hdur, hnest⟩ := hwf
  have hperm : (List.insertionSort spanLE spans).Perm spans :=
    List.perm_insertionSort spanLE spans
  have hdur2 : ∀ s ∈ ([] : List EventSpan) ++ List.insertionSort spanLE spans,
      0 < s.duration := by
    intro s hs
    exact hdur s (hperm.mem_iff.mp (by simpa using hs))
  have hnest2 : (([] : List EventSpan)
      ++ List.insertionSort spanLE spans).Pairwise nestRel := by
    simpa using (hperm.pairwise_iff (fun h => nestRel_symm h)).mpr hnest
  have hsort2 : (([] : List EventSpan)
      ++ List.insertionSort spanLE spans).Pairwise spanLE := by
    simpa using List.sorted_insertionSort spanLE spans
  have h := sweep_eq (List.insertionSort spanLE spans) [] [] 0
    hdur2 hnest2 hsort2 (List.Pairwise.nil) (by simp)
    (fun c _ => rfl) (fun s _ => Nat.zero_le _)
  unfold updateDepth
  rw [h]
  refine List.map_congr_left ?_
  intro s hs
  rw [List.nil_append]
  rw [List.Perm.countP_eq _ hperm]

/-! ## Claim theorems -/

/-- C1 (counterexample): at a state where the thread's buffer guard cannot
be acquired, `ScopedProfiler::drop` does not complete silently — the
`unwrap` of `record_event`'s error panics the instrumented thread. -/
theorem c1_contention_counterexample :
    (scopedDrop
      { lockAvailable := false, buffer := [],
        sink := { openOk := true, writeOk := true, flushOk := true, data := [] } }
      { id := 1, duration := 1, timestamp := 1, name := [] }).1
      = DropOutcome.panicked := by decide

/-- C1 (amended): when the buffer guard cannot be acquired immediately,
`record_event` does not block and does not record the event (the state is
unchanged — the event is dropped), but it returns an error, and
`ScopedProfiler::drop` unwraps that error, panicking the instrumented
thread instead of completing silently. -/
theorem c1_contention_amended (st : CaptureState) (ev : Event)
    (h : st.lockAvailable = false) :
    (recordEvent st ev).1 = false ∧ (recordEvent st ev).2 = st ∧
      scopedDrop st ev = (DropOutcome.panicked, st) := by
  unfold scopedDrop recordEvent
  rw [h]
  simp

/-- C1 witness: the amended statement at a concrete locked state. -/
theorem c1_contention_amended_witness :
    (recordEvent
        { lockAvailable := false,
          buffer := [{ id := 2, duration := 5, timestamp := 9, name := [65] }],
          sink := { openOk := true, writeOk := true, flushOk := true, data := [] } }
        { id := 2, duration := 1, timestamp := 10, name := [66] }).1 = false ∧
    (recordEvent
        { lockAvailable := false,
          buffer := [{ id := 2, duration := 5, timestamp := 9, name := [65] }],
          sink := { openOk := true, writeOk := true, flushOk := true, data := [] } }
        { id := 2, duration := 1, timestamp := 10, name := [66] }).2
      = { lockAvailable := false,
          buffer := [{ id := 2, duration := 5, timestamp := 9, name := [65] }],
          sink := { openOk := true, writeOk := true, flushOk := true, data := [] } } ∧
    scopedDrop
        { lockAvailable := false,
          buffer := [{ id := 2, duration := 5, timestamp := 9, name := [65] }],
          sink := { openOk := true, writeOk := true, flushOk := true, data := [] } }
        { id := 2, duration := 1, timestamp := 10, name := [66] }
      = (DropOutcome.panicked,
          { lockAvailable := false,
            buffer := [{ id := 2, duration := 5, timestamp := 9, name := [65] }],
            sink := { openOk := true, writeOk := true, flushOk := true, data := [] } }) :=
  c1_contention_amended _ _ (by decide)

/-- C2 (counterexample): `EventsBuilder::build` on the empty input does not
return an EventLog at all — the `min().unwrap()` panics (embedded as
`none`). -/
theorem c2_empty_build_counterexample : build [] = none := by decide

/-- C2 (amended): `build` panics exactly on the empty input; for every
non-empty input it returns an EventLog.  The code has no empty-input
convention (no empty thread map, no `total_duration = 0`). -/
theorem c2_empty_build_amended (events : List Event) :
    build events = none ↔ events = [] := by
  cases events with
  | nil => simp [build]
  | cons e rest =>
    simp only [build, convert, List.map_cons, List.min?_cons, List.max?_cons]
    constructor
    · intro h
      exact absurd h (by simp)
    · intro h
      exact absurd h (by simp)

/-- C2 witness: the amended statement at concrete inputs. -/
theorem c2_empty_build_amended_witness :
    (build [] = none ↔ ([] : List Event) = []) ∧
      (build [{ id := 3, duration := 4, timestamp := 20, name := [65] }] = none
        ↔ [({ id := 3, duration := 4, timestamp := 20, name := [65] } : Event)] = []) :=
  ⟨c2_empty_build_amended [],
   c2_empty_build_amended [{ id := 3, duration := 4, timestamp := 20, name := [65] }]⟩

/-- C3 (evaluation at the failing input): on thread 7 with raw events
(timestamp 100, duration 10, name "A"), (102, 3, "B"), (112, 1, "C"),
`build` treats each `timestamp` as the span's start: it normalizes to
relative starts 0, 2, 12 (not 0, 9, 21), keeps the order A, B, C, assigns
depths 0, 1, 0, and computes `total_duration = 13` — not the 22 the claim
(with timestamps read as end times) requires. -/
theorem c3_scenario_eval :
    build [{ id := 7, duration := 10, timestamp := 100, name := [65] },
           { id := 7, duration := 3, timestamp := 102, name := [66] },
           { id := 7, duration := 1, timestamp := 112, name := [67] }]
      = some { start_time := 100, total_duration := 13,
               threads := [(7,
                 [{ id := 7, duration := 10, timestamp := 0, depth := 0, name := [65] },
                  { id := 7, duration := 3, timestamp := 2, depth := 1, name := [66] },
                  { id := 7, duration := 1, timestamp := 12, depth := 0, name := [67] }])] }
      ∧ (13 : Nat) ≠ 22 := by decide

/-- C4: the codec round-trips: decoding the serialization of any finite
sequence of well-formed raw events (fields within their machine-integer
ranges, names valid UTF-8 — including empty and multi-byte names) yields
exactly the original sequence. -/
theorem c4_roundtrip (events : List Event) (hwf : ∀ e ∈ events, WFEvent e) :
    deserializeEvents (serializeEvents events) = some events :=
  deserializeEvents_serializeEvents hwf

/-- C4 witness: round trip of a concrete sequence with a zero-length name
and a multi-byte UTF-8 name (`"é"` = bytes 195, 169). -/
theorem c4_roundtrip_witness :
    deserializeEvents (serializeEvents
        [{ id := 1, duration := 2, timestamp := 3, name := [] },
         { id := 4, duration := 5, timestamp := 6, name := [195, 169] }])
      = some [{ id := 1, duration := 2, timestamp := 3, name := [] },
              { id := 4, duration := 5, timestamp := 6, name := [195, 169] }] :=
  c4_roundtrip _ (by decide)

/-- C5 (counterexample): when the sink write fails during a spill,
`dump_current` returns the error and the buffer is NOT cleared — contrary
to the claim that it is cleared regardless of the write outcome. -/
theorem c5_spill_failure_counterexample :
    (dumpCurrent { openOk := true, writeOk := false, flushOk := true, data := [] }
        [{ id := 1, duration := 1, timestamp := 1, name := [] }]).1 = false ∧
    (dumpCurrent { openOk := true, writeOk := false, flushOk := true, data := [] }
        [{ id := 1, duration := 1, timestamp := 1, name := [] }]).2.2
      = [{ id := 1, duration := 1, timestamp := 1, name := [] }] := by decide

/-- C5 (amended): `dump_current` succeeds only when open, write and flush
all succeed; the buffer is cleared exactly on success and kept intact on
any failure (each `?` returns before `events.clear()`).  The failure is not
merely reported: it propagates through `record_event` to the `unwrap` in
`ScopedProfiler::drop`, panicking the instrumented thread whose append
triggered the spill. -/
theorem c5_spill_failure_amended (sink : Sink) (events : List Event)
    (st : CaptureState) (ev : Event)
    (hlock : st.lockAvailable = true)
    (hfull : SPILL_CONSTANT < st.buffer.length + 1)
    (hw : st.sink.writeOk = false) :
    ((dumpCurrent sink events).1 = (sink.openOk && sink.writeOk && sink.flushOk)) ∧
    ((dumpCurrent sink events).2.2
      = if sink.openOk && sink.writeOk && sink.flushOk then [] else events) ∧
    (scopedDrop st ev).1 = DropOutcome.panicked := by
  refine ⟨?_, ?_, ?_⟩
  · unfold dumpCurrent
    cases sink.openOk <;> cases sink.writeOk <;> cases sink.flushOk <;> simp
  · unfold dumpCurrent
    cases sink.openOk <;> cases sink.writeOk <;> cases sink.flushOk <;> simp
  · have hbuf : SPILL_CONSTANT < (st.buffer ++ [ev]).length := by
      rw [List.length_append]; simpa using hfull
    unfold scopedDrop recordEvent dumpCurrent
    rw [hlock, hw]
    rw [if_neg (by simp), if_pos hbuf]
    cases h : st.sink.openOk <;> simp

/-- C5 witness: the amended statement at a concrete failing sink and a
concrete full buffer. -/
theorem c5_spill_failure_amended_witness :
    ((dumpCurrent { openOk := true, writeOk := false, flushOk := true, data := [] }
        [{ id := 1, duration := 1, timestamp := 1, name := [] }]).1
      = (true && false && true)) ∧
    ((dumpCurrent { openOk := true, writeOk := false, flushOk := true, data := [] }
        [{ id := 1, duration := 1, timestamp := 1, name := [] }]).2.2
      = if true && false && true then []
        else [{ id := 1, duration := 1, timestamp := 1, name := [] }]) ∧
    (scopedDrop
        { lockAvailable := true,
          buffer := List.replicate 100 { id := 1, duration := 1, timestamp := 1, name := [] },
          sink := { openOk := true, writeOk := false, flushOk := true, data := [] } }
        { id := 1, duration := 1, timestamp := 2, name := [] }).1
      = DropOutcome.panicked :=
  c5_spill_failure_amended _ _ _ _ (by decide) (by decide) (by decide)

/-- C6: the `EventSpan` comparator implements exactly the specified
precedence: ascending relative start offset; on tie descending duration;
on tie ascending id; on tie ascending depth; on tie lexicographic name —
stated both as equality with the lexicographic chain of the five keys and
as an explicit characterization of "sorts strictly before". -/
theorem c6_comparator_precedence (a b : EventSpan) :
    cmpSpan a b = specCmpSpan a b ∧
      (cmpSpan a b = Ordering.lt ↔
        a.timestamp < b.timestamp ∨ (a.timestamp = b.timestamp ∧
          (b.duration < a.duration ∨ (a.duration = b.duration ∧
            (a.id < b.id ∨ (a.id = b.id ∧
              (a.depth < b.depth ∨ (a.depth = b.depth ∧
                lexCmpBytes a.name b.name = Ordering.lt)))))))) := by
  constructor
  · exact cmpSpan_eq_spec a b
  · rw [cmpSpan_eq_spec]
    exact specCmpSpan_lt_iff a b

/-- C7: on well-nested input (positive durations; any two spans disjoint or
properly nested), depth assignment is correct: if `a` properly contains `b`
and no other span encloses `b` more tightly, then `b` gets depth one more
than `a`.  Moreover one sweep step pops exactly the pending end offsets
`≤` the span's start (the stack being sorted), sets the depth to the
remaining stack size and pushes the span's own end offset. -/
theorem c7_depth_correct (spans : List EventSpan) (hwf : WellNested spans)
    (a b : EventSpan) (ha : a ∈ updateDepth spans) (hb : b ∈ updateDepth spans)
    (hab : properlyContains a b)
    (hmin : ∀ c ∈ updateDepth spans, properlyContains c b →
      sameInterval c a ∨ properlyContains c a) :
    b.depth = a.depth + 1 ∧
      ∀ (u : EventSpan) (rest : List EventSpan) (stack : List Nat),
        stack.Pairwise (· ≤ ·) →
        sweep (u :: rest) stack
          = { u with
              depth := (stack.filter (fun e => decide (u.timestamp < e))).length }
            :: sweep rest ((u.timestamp + u.duration)
                :: stack.filter (fun e => decide (u.timestamp < e))) := by
  constructor
  · have hmap := updateDepth_eq_map hwf
    rw [hmap] at ha hb hmin
    obtain ⟨a0, ha0, rfl⟩ := List.mem_map.mp ha
    obtain ⟨b0, hb0, rfl⟩ := List.mem_map.mp hb
    have hperm := List.perm_insertionSort spanLE spans
    have hab0 : properlyContains a0 b0 := hab
    have ha0s : a0 ∈ spans := hperm.mem_iff.mp ha0
    have hmin0 : ∀ c ∈ spans, properlyContains c b0 →
        sameInterval c a0 ∨ properlyContains c a0 := by
      intro c hc hcb
      have hcs : c ∈ List.insertionSort spanLE spans := hperm.mem_iff.mpr hc
      have hres := hmin _ (List.mem_map.mpr ⟨c, hcs, rfl⟩) hcb
      rcases hres with h | h
      · exact Or.inl h
      · exact Or.inr h
    have hpoint : ∀ c ∈ spans,
        (properlyContains c b0 ↔ (properlyContains c a0 ∨ sameInterval c a0)) := by
      intro c hc
      constructor
      · intro hcb
        rcases hmin0 c hc hcb with h | h
        · exact Or.inr h
        · exact Or.inl h
      · intro h
        rcases h with h | h
        · exact properlyContains_trans h hab0
        · exact (properlyContains_congr_left h).mpr hab0
    have hpw : spans.Pairwise (fun x y => ¬ sameInterval x y) :=
      List.Pairwise.imp_of_mem
        (fun hx hy hr => nestRel_not_sameInterval hr (hwf.1 _ hx) (hwf.1 _ hy))
        hwf.2
    have hone : spans.countP (fun c => decide (sameInterval c a0)) = 1 :=
      countP_sameInterval_one ha0s (sameInterval_refl a0) hpw
    show spans.countP (fun c => decide (properlyContains c b0))
        = spans.countP (fun c => decide (properlyContains c a0)) + 1
    calc spans.countP (fun c => decide (properlyContains c b0))
        = spans.countP (fun c =>
            decide (properlyContains c a0) || decide (sameInterval c a0)) := by
          refine List.countP_congr ?_
          intro c hc
          simp only [decide_eq_true_eq, Bool.or_eq_true]
          exact hpoint c hc
      _ = spans.countP (fun c => decide (properlyContains c a0))
            + spans.countP (fun c => decide (sameInterval c a0)) := by
          refine countP_or_disjoint spans ?_
          intro c hc hcontra
          simp only [decide_eq_true_eq] at hcontra
          exact properlyContains_irrefl a0
            ((properlyContains_congr_left hcontra.2).mp hcontra.1)
      _ = spans.countP (fun c => decide (properlyContains c a0)) + 1 := by
          rw [hone]
  · intro u rest stack hst
    show ({ u with depth := (popLE u.timestamp stack).length } ::
        sweep rest ((u.timestamp + u.duration) :: popLE u.timestamp stack)) = _
    rw [popLE_eq_filter hst]

/-- C7 witness: a two-span well-nested thread; the inner span receives
depth one more than its tightest encloser. -/
theorem c7_depth_correct_witness :
    ({ id := 7, duration := 3, timestamp := 2, depth := 1, name := [66] }
        : EventSpan).depth
      = ({ id := 7, duration := 10, timestamp := 0, depth := 0, name := [65] }
        : EventSpan).depth + 1 :=
  (c7_depth_correct
    [{ id := 7, duration := 3, timestamp := 2, depth := 0, name := [66] },
     { id := 7, duration := 10, timestamp := 0, depth := 0, name := [65] }]
    (by decide) _ _ (by decide) (by decide) (by decide) (by decide)).1

/-- C8: removing the final byte of the serialization of any non-empty
sequence of well-formed raw events makes the whole decode fail (no partial
result), while the zero-length input decodes to the empty sequence. -/
theorem c8_truncation (events : List Event) (hne : events ≠ [])
    (hwf : ∀ e ∈ events, WFEvent e) :
    deserializeEvents ((serializeEvents events).dropLast) = none ∧
      deserializeEvents [] = some [] := by
  refine ⟨deserializeEvents_dropLast hne hwf, ?_⟩
  rw [deserializeEvents]
  simp

/-- C8 witness: the truncated serialization of a concrete event fails to
decode, and the empty input decodes to the empty sequence. -/
theorem c8_truncation_witness :
    deserializeEvents ((serializeEvents
        [{ id := 1, duration := 2, timestamp := 3, name := [195, 169] }]).dropLast)
      = none ∧ deserializeEvents [] = some [] :=
  c8_truncation _ (by decide) (by decide)

/-- C9: `init_profiler` is idempotent: after `n ≥ 1` calls from the
uninitialized state the atexit flush is registered exactly once and the
sink was truncated exactly once, and any further call is a no-op. -/
theorem c9_init_idempotent (n : Nat) (hn : 1 ≤ n) :
    initCalls n initState0
      = { atexitRegistered := true, truncations := 1, registrations := 1 } ∧
    initProfiler (initCalls n initState0) = initCalls n initState0 := by
  have hfix : ∀ m, initCalls m
      { atexitRegistered := true, truncations := 1, registrations := 1 }
      = { atexitRegistered := true, truncations := 1, registrations := 1 } := by
    intro m
    induction m with
    | zero => rfl
    | succ m ih =>
      rw [show initCalls (m + 1)
          { atexitRegistered := true, truncations := 1, registrations := 1 }
        = initCalls m (initProfiler
          { atexitRegistered := true, truncations := 1, registrations := 1 })
        from rfl]
      rw [show initProfiler
          { atexitRegistered := true, truncations := 1, registrations := 1 }
        = { atexitRegistered := true, truncations := 1, registrations := 1 }
        from rfl]
      exact ih
  obtain ⟨k, rfl⟩ : ∃ k, n = k + 1 := ⟨n - 1, by omega⟩
  have hstep : initCalls (k + 1) initState0
      = initCalls k { atexitRegistered := true, truncations := 1,
                      registrations := 1 } := rfl
  rw [hstep, hfix k]
  exact ⟨rfl, rfl⟩

/-- C9 witness: three calls register exactly once, and a fourth call is a
no-op. -/
theorem c9_init_idempotent_witness :
    initCalls 3 initState0
      = { atexitRegistered := true, truncations := 1, registrations := 1 } ∧
    initProfiler (initCalls 3 initState0) = initCalls 3 initState0 :=
  c9_init_idempotent 3 (by decide)

/-- C10: the `PartialOrd` implementation never returns `None` (so the
`unwrap` in `Ord::cmp` never panics), and the induced comparison is a total
order: it is `eq` exactly on equal spans, antisymmetric under swapping the
arguments, transitive, and total — making `spans.sort()` in `update_depth`
well-defined and deterministic. -/
theorem c10_partialOrd_total (a b c : EventSpan) :
    (partialCmpSpan a b).isSome = true ∧
    (cmpSpan a b = Ordering.eq ↔ a = b) ∧
    cmpSpan b a = (cmpSpan a b).swap ∧
    (cmpSpan a b = Ordering.lt → cmpSpan b c = Ordering.lt →
      cmpSpan a c = Ordering.lt) ∧
    (spanLE a b ∨ spanLE b a) := by
  refine ⟨?_, ?_, ?_, ?_, spanLE_total a b⟩
  · rw [partialCmpSpan_eq_spec]; rfl
  · rw [cmpSpan_eq_spec]; exact specCmpSpan_eq_iff a b
  · rw [cmpSpan_eq_spec, cmpSpan_eq_spec]; exact specCmpSpan_swap a b
  · rw [cmpSpan_eq_spec, cmpSpan_eq_spec, cmpSpan_eq_spec]
    exact fun h1 h2 => specCmpSpan_lt_trans h1 h2

/-- C10 witness: the statement at three concrete spans. -/
theorem c10_partialOrd_total_witness :
    (partialCmpSpan
        { id := 1, duration := 2, timestamp := 3, depth := 0, name := [65] }
        { id := 1, duration := 2, timestamp := 3, depth := 0, name := [66] }).isSome
      = true ∧
    (cmpSpan { id := 1, duration := 2, timestamp := 3, depth := 0, name := [65] }
        { id := 1, duration := 2, timestamp := 3, depth := 0, name := [66] }
      = Ordering.eq
      ↔ ({ id := 1, duration := 2, timestamp := 3, depth := 0, name := [65] }
          : EventSpan)
        = { id := 1, duration := 2, timestamp := 3, depth := 0, name := [66] }) ∧
    cmpSpan { id := 1, duration := 2, timestamp := 3, depth := 0, name := [66] }
        { id := 1, duration := 2, timestamp := 3, depth := 0, name := [65] }
      = (cmpSpan { id := 1, duration := 2, timestamp := 3, depth := 0, name := [65] }
          { id := 1, duration := 2, timestamp := 3, depth := 0, name := [66] }).swap ∧
    (cmpSpan { id := 1, duration := 2, timestamp := 3, depth := 0, name := [65] }
        { id := 1, duration := 2, timestamp := 3, depth := 0, name := [66] }
      = Ordering.lt →
     cmpSpan { id := 1, duration := 2, timestamp := 3, depth := 0, name := [66] }
        { id := 1, duration := 2, timestamp := 4, depth := 0, name := [67] }
      = Ordering.lt →
     cmpSpan { id := 1, duration := 2, timestamp := 3, depth := 0, name := [65] }
        { id := 1, duration := 2, timestamp := 4, depth := 0, name := [67] }
      = Ordering.lt) ∧
    (spanLE { id := 1, duration := 2, timestamp := 3, depth := 0, name := [65] }
        { id := 1, duration := 2, timestamp := 3, depth := 0, name := [66] }
     ∨ spanLE { id := 1, duration := 2, timestamp := 3, depth := 0, name := [66] }
        { id := 1, duration := 2, timestamp := 3, depth := 0, name := [65] }) :=
  c10_partialOrd_total _ _ _

end Racy
